import Mathlib

/-!
Verification development for the skill-scraper repository.

Python dictionaries are modelled as ordered association lists with unique
keys (`List (κ × α)`): `alookup` is dictionary lookup, `dictInsert` is
`d[k] = v` (an existing key keeps its position and receives the new value,
a fresh key is appended at the end), and `recordUpdate` is `d.update(n)`.
Repository records (the JSON objects handled by `storage.py`) are such
dictionaries with `String` keys and values.
-/

set_option maxHeartbeats 1000000
set_option maxRecDepth 100000

/-- Dictionary lookup on an ordered association list: the value at the first
entry whose key equals `k`, as Python `d[k]` / `d.get(k)`. -/
def alookup {κ α : Type} [DecidableEq κ] (k : κ) : List (κ × α) → Option α
  | [] => none
  | e :: t => if e.1 = k then some e.2 else alookup k t

/-- Key sequence of an association list. -/
def keysOf {κ α : Type} (m : List (κ × α)) : List κ :=
  m.map Prod.fst

/-- Rewrite the value stored at key `k` (every entry with key `k`, which on
the unique-key lists produced by Python dicts is the single such entry),
keeping its position. -/
def mapValueAt {κ α : Type} [DecidableEq κ] (m : List (κ × α)) (k : κ) (g : α → α) :
    List (κ × α) :=
  m.map (fun p => if p.1 = k then (k, g p.2) else p)

/-- Python `d[k] = v` on an ordered dictionary: if `k` is present the entry
keeps its position and gets the new value, otherwise `(k, v)` is appended. -/
def dictInsert {κ α : Type} [DecidableEq κ] (m : List (κ × α)) (k : κ) (v : α) :
    List (κ × α) :=
  if k ∈ keysOf m then mapValueAt m k (fun _ => v) else m ++ [(k, v)]

@[simp]
theorem alookup_nil {κ α : Type} [DecidableEq κ] (k : κ) :
    alookup (α := α) k [] = none := rfl

@[simp]
theorem alookup_cons {κ α : Type} [DecidableEq κ] (k : κ) (e : κ × α) (t : List (κ × α)) :
    alookup k (e :: t) = if e.1 = k then some e.2 else alookup k t := rfl

@[simp]
theorem keysOf_nil {κ α : Type} : keysOf ([] : List (κ × α)) = [] := rfl

@[simp]
theorem keysOf_cons {κ α : Type} (e : κ × α) (t : List (κ × α)) :
    keysOf (e :: t) = e.1 :: keysOf t := rfl

@[simp]
theorem keysOf_append {κ α : Type} (m₁ m₂ : List (κ × α)) :
    keysOf (m₁ ++ m₂) = keysOf m₁ ++ keysOf m₂ := by
  simp [keysOf]

theorem alookup_eq_none_of_not_mem {κ α : Type} [DecidableEq κ] {k : κ}
    {m : List (κ × α)} (h : k ∉ keysOf m) : alookup k m = none := by
  induction m with
  | nil => rfl
  | cons e t ih =>
      simp only [keysOf_cons, List.mem_cons] at h
      push_neg at h
      simp [Ne.symm h.1, ih h.2]

theorem alookup_isSome_of_mem {κ α : Type} [DecidableEq κ] {k : κ}
    {m : List (κ × α)} (h : k ∈ keysOf m) : (alookup k m).isSome := by
  induction m with
  | nil => simp at h
  | cons e t ih =>
      by_cases he : e.1 = k
      · simp [he]
      · simp only [keysOf_cons, List.mem_cons] at h
        rcases h with h | h
        · exact absurd h.symm he
        · simp [he, ih h]

theorem alookup_append {κ α : Type} [DecidableEq κ] (k : κ) (m₁ m₂ : List (κ × α)) :
    alookup k (m₁ ++ m₂) =
      match alookup k m₁ with
      | some v => some v
      | none => alookup k m₂ := by
  induction m₁ with
  | nil => simp
  | cons e t ih =>
      by_cases h : e.1 = k <;> simp [h, ih]

theorem alookup_mem {κ α : Type} [DecidableEq κ] {k : κ} {m : List (κ × α)} {v : α}
    (h : alookup k m = some v) : (k, v) ∈ m := by
  induction m with
  | nil => simp at h
  | cons e t ih =>
      by_cases he : e.1 = k
      · rw [alookup_cons, if_pos he] at h
        cases h
        cases e
        subst he
        exact List.mem_cons_self _ _
      · rw [alookup_cons, if_neg he] at h
        exact List.mem_cons_of_mem _ (ih h)

theorem alookup_of_mem_nodup {κ α : Type} [DecidableEq κ] {k : κ} {m : List (κ × α)} {v : α}
    (hnd : (keysOf m).Nodup) (hmem : (k, v) ∈ m) : alookup k m = some v := by
  induction m with
  | nil => simp at hmem
  | cons e t ih =>
      rw [keysOf_cons, List.nodup_cons] at hnd
      rcases List.mem_cons.mp hmem with h | h
      · subst h; simp
      · have hk : k ∈ keysOf t := by
          simpa [keysOf] using List.mem_map_of_mem Prod.fst h
        have hne : e.1 ≠ k := fun hek => hnd.1 (hek ▸ hk)
        simp [hne, ih hnd.2 h]

theorem keysOf_mapValueAt {κ α : Type} [DecidableEq κ] (m : List (κ × α)) (k : κ)
    (g : α → α) : keysOf (mapValueAt m k g) = keysOf m := by
  simp only [mapValueAt, keysOf, List.map_map]
  apply List.map_congr_left
  intro p _
  by_cases hp : p.1 = k <;> simp [hp]

theorem alookup_mapValueAt {κ α : Type} [DecidableEq κ] (m : List (κ × α)) (k a : κ)
    (g : α → α) :
    alookup a (mapValueAt m k g) =
      if a = k then (alookup k m).map g else alookup a m := by
  induction m with
  | nil => by_cases h : a = k <;> simp [mapValueAt, h]
  | cons e t ih =>
      simp only [mapValueAt, List.map_cons] at ih ⊢
      by_cases hek : e.1 = k
      · by_cases hak : a = k
        · subst hak; simp [hek]
        · have h1 : ¬ (k = a) := fun h => hak h.symm
          have h2 : e.1 ≠ a := fun h => hak (h ▸ hek)
          simp [hek, h1, h2, ih, hak]
      · by_cases hak : a = k
        · subst hak
          simp [hek, ih]
        · by_cases hea : e.1 = a <;> simp [hek, hea, ih, hak]

theorem keysOf_dictInsert {κ α : Type} [DecidableEq κ] (m : List (κ × α)) (k : κ) (v : α) :
    keysOf (dictInsert m k v) = if k ∈ keysOf m then keysOf m else keysOf m ++ [k] := by
  unfold dictInsert
  by_cases h : k ∈ keysOf m
  · simp [h, keysOf_mapValueAt]
  · simp [h]

theorem alookup_dictInsert {κ α : Type} [DecidableEq κ] (m : List (κ × α)) (k a : κ) (v : α) :
    alookup a (dictInsert m k v) = if a = k then some v else alookup a m := by
  unfold dictInsert
  by_cases hk : k ∈ keysOf m
  · rw [if_pos hk, alookup_mapValueAt]
    by_cases hak : a = k
    · subst hak
      obtain ⟨w, hw⟩ := Option.isSome_iff_exists.mp (alookup_isSome_of_mem hk)
      simp [hw]
    · simp [hak]
  · rw [if_neg hk, alookup_append]
    by_cases hak : a = k
    · subst hak
      rw [alookup_eq_none_of_not_mem hk]
      simp
    · cases hx : alookup a m with
      | none => simp [hak, Ne.symm hak]
      | some v => simp [hak]

theorem keysOf_nodup_dictInsert {κ α : Type} [DecidableEq κ] (m : List (κ × α)) (k : κ) (v : α)
    (h : (keysOf m).Nodup) : (keysOf (dictInsert m k v)).Nodup := by
  rw [keysOf_dictInsert]
  by_cases hk : k ∈ keysOf m
  · simpa [hk] using h
  · simp only [hk, if_neg, not_false_iff]
    simpa [List.nodup_append] using ⟨h, hk⟩

/-- First-match alternative on options: `optOr o d` is `o` when `o` is `some`,
else `d` (Python field shadowing: the updating dictionary wins). -/
def optOr {α : Type} (o d : Option α) : Option α :=
  match o with
  | some v => some v
  | none => d

@[simp]
theorem optOr_some {α : Type} (v : α) (d : Option α) : optOr (some v) d = some v := rfl

@[simp]
theorem optOr_none {α : Type} (d : Option α) : optOr none d = d := rfl

/-- Repository records (`storage.py`, `scraper.py`): Python dicts with string
keys and string values, modelled as ordered association lists. -/
abbrev Record := List (String × String)

/-- The merge key of a record: its `full_name` field (`repo["full_name"]`);
records missing the field take the default key `""`. -/
def keyOf (r : Record) : String :=
  (alookup "full_name" r).getD ""

/-- Python `d.update(n)`: assign each field of `n` into `d`, in order. -/
def recordUpdate (d n : Record) : Record :=
  n.foldl (fun acc e => dictInsert acc e.1 e.2) d

theorem alookup_recordUpdate (d n : Record) (hn : (keysOf n).Nodup) (f : String) :
    alookup f (recordUpdate d n) = optOr (alookup f n) (alookup f d) := by
  induction n generalizing d with
  | nil => simp [recordUpdate]
  | cons e t ih =>
      rw [keysOf_cons, List.nodup_cons] at hn
      have step : recordUpdate d (e :: t) = recordUpdate (dictInsert d e.1 e.2) t := rfl
      rw [step, ih _ hn.2]
      by_cases hef : e.1 = f
      · have hft : alookup f t = none := by
          apply alookup_eq_none_of_not_mem
          exact fun hm => hn.1 (hef ▸ hm)
        simp [hft, alookup_dictInsert, hef]
      · cases hx : alookup f t with
        | some v => simp [alookup_dictInsert, hef, Ne.symm hef, hx]
        | none => simp [alookup_dictInsert, hef, Ne.symm hef, hx]

theorem keyOf_recordUpdate {k : String} (d n : Record) (hn : (keysOf n).Nodup)
    (hd : keyOf d = k) (hnk : keyOf n = k) : keyOf (recordUpdate d n) = k := by
  unfold keyOf at *
  rw [alookup_recordUpdate d n hn "full_name"]
  cases hx : alookup "full_name" n with
  | some v => rw [hx] at hnk; simpa using hnk
  | none => rw [hx] at hnk; simpa using hd

/-- One iteration of the `for new_repo in new` loop of
`RepoStorage._merge_repos` (src/storage.py): if the key is present, the mapped
record is updated in place with the new record's fields, else the new record
is inserted. -/
def mergeStep (m : List (String × Record)) (r : Record) : List (String × Record) :=
  let k := keyOf r
  if k ∈ keysOf m then mapValueAt m k (fun v => recordUpdate v r)
  else m ++ [(k, r)]

/-- Value-level model of `RepoStorage._merge_repos` (src/storage.py): seed a
mapping keyed by `full_name` from `existing`, fold the `new` records through
`mergeStep`, and return the mapping's values. Records are treated as values;
the in-place `dict.update` of the source is modelled by replacing the mapped
value (the heap-level model below accounts for the mutation itself). -/
def merge_repos (existing new : List Record) : List Record :=
  let repo_map := existing.foldl (fun m r => dictInsert m (keyOf r) r) []
  ((new.foldl mergeStep repo_map).map Prod.snd)

theorem keysOf_mergeStep (m : List (String × Record)) (r : Record) :
    keysOf (mergeStep m r) =
      if keyOf r ∈ keysOf m then keysOf m else keysOf m ++ [keyOf r] := by
  unfold mergeStep
  by_cases h : keyOf r ∈ keysOf m
  · simp [h, keysOf_mapValueAt]
  · simp [h]

theorem alookup_mergeStep (m : List (String × Record)) (r : Record) (a : String) :
    alookup a (mergeStep m r) =
      if a = keyOf r then
        some (match alookup (keyOf r) m with
              | some v => recordUpdate v r
              | none => r)
      else alookup a m := by
  unfold mergeStep
  by_cases hk : keyOf r ∈ keysOf m
  · rw [if_pos hk, alookup_mapValueAt]
    by_cases hak : a = keyOf r
    · subst hak
      obtain ⟨w, hw⟩ := Option.isSome_iff_exists.mp (alookup_isSome_of_mem hk)
      simp [hw]
    · simp [hak]
  · rw [if_neg hk, alookup_append]
    by_cases hak : a = keyOf r
    · subst hak
      rw [alookup_eq_none_of_not_mem hk]
      simp
    · cases hx : alookup a m with
      | none => simp [hak, Ne.symm hak]
      | some v => simp [hak]

theorem alookup_foldl_mergeStep_not_mem (N : List Record) (m : List (String × Record))
    (a : String) (ha : a ∉ N.map keyOf) :
    alookup a (N.foldl mergeStep m) = alookup a m := by
  induction N generalizing m with
  | nil => rfl
  | cons r t ih =>
      simp only [List.map_cons, List.mem_cons] at ha
      push_neg at ha
      rw [List.foldl_cons, ih _ ha.2, alookup_mergeStep, if_neg ha.1]

theorem alookup_foldl_mergeStep_mem (N : List Record) (m : List (String × Record))
    (r : Record) (hNd : (N.map keyOf).Nodup) (hr : r ∈ N) :
    alookup (keyOf r) (N.foldl mergeStep m) =
      some (match alookup (keyOf r) m with
            | some v => recordUpdate v r
            | none => r) := by
  induction N generalizing m with
  | nil => simp at hr
  | cons r₀ t ih =>
      rw [List.map_cons, List.nodup_cons] at hNd
      rcases List.mem_cons.mp hr with h | h
      · subst h
        rw [List.foldl_cons, alookup_foldl_mergeStep_not_mem _ _ _ hNd.1,
          alookup_mergeStep, if_pos rfl]
      · have hne : keyOf r ≠ keyOf r₀ := by
          intro he
          exact hNd.1 (he ▸ List.mem_map_of_mem keyOf h)
        rw [List.foldl_cons, ih _ hNd.2 h, alookup_mergeStep, if_neg hne]

theorem foldl_mergeStep_entry_key (N : List Record) (m : List (String × Record))
    (hm : ∀ e ∈ m, keyOf e.2 = e.1) (hN : ∀ r ∈ N, (keysOf r).Nodup) :
    ∀ e ∈ N.foldl mergeStep m, keyOf e.2 = e.1 := by
  induction N generalizing m with
  | nil => exact hm
  | cons r t ih =>
      rw [List.foldl_cons]
      refine ih _ (fun e he => ?_) (fun r hr => hN r (List.mem_cons_of_mem _ hr))
      unfold mergeStep mapValueAt at he
      by_cases hk : keyOf r ∈ keysOf m
      · rw [if_pos hk] at he
        obtain ⟨p, hp, hpe⟩ := List.mem_map.mp he
        by_cases hpk : p.1 = keyOf r
        · rw [if_pos hpk] at hpe
          subst hpe
          exact keyOf_recordUpdate p.2 r (hN r (List.mem_cons_self _ _))
            (hpk ▸ hm p hp) rfl
        · rw [if_neg hpk] at hpe
          subst hpe
          exact hm p hp
      · rw [if_neg hk] at he
        rcases List.mem_append.mp he with h | h
        · exact hm e h
        · simp only [List.mem_singleton] at h
          subst h
          rfl

theorem foldl_mergeStep_keys_nodup (N : List Record) (m : List (String × Record))
    (h : (keysOf m).Nodup) : (keysOf (N.foldl mergeStep m)).Nodup := by
  induction N generalizing m with
  | nil => exact h
  | cons r t ih =>
      rw [List.foldl_cons]
      refine ih _ ?_
      rw [keysOf_mergeStep]
      by_cases hk : keyOf r ∈ keysOf m
      · simpa [hk] using h
      · simp only [hk, if_neg, not_false_iff]
        simpa [List.nodup_append] using ⟨h, hk⟩

theorem mem_keys_foldl_mergeStep (N : List Record) (m : List (String × Record))
    (a : String) :
    a ∈ keysOf (N.foldl mergeStep m) ↔ a ∈ keysOf m ∨ a ∈ N.map keyOf := by
  induction N generalizing m with
  | nil => simp
  | cons r t ih =>
      rw [List.foldl_cons, ih, keysOf_mergeStep]
      by_cases hk : keyOf r ∈ keysOf m
      · simp only [hk, if_pos, List.map_cons, List.mem_cons]
        constructor
        · rintro (h | h)
          · exact Or.inl h
          · exact Or.inr (Or.inr h)
        · rintro (h | h | h)
          · exact Or.inl h
          · exact Or.inl (h ▸ hk)
          · exact Or.inr h
      · simp only [hk, if_neg, not_false_iff, List.mem_append, List.mem_singleton,
          List.map_cons, List.mem_cons]
        tauto

theorem foldl_dictInsert_fresh {κ α : Type} [DecidableEq κ] (f : α → κ) :
    ∀ (l : List α) (m : List (κ × α)), (keysOf m ++ l.map f).Nodup →
      l.foldl (fun m r => dictInsert m (f r) r) m = m ++ l.map (fun r => (f r, r))
  | [], m, _ => by simp
  | r :: t, m, h => by
      have hfr : f r ∉ keysOf m := by
        intro hm
        rcases List.nodup_append.mp h with ⟨_, _, hdisj⟩
        exact hdisj hm (List.mem_cons_self _ _)
      rw [List.foldl_cons]
      have hins : dictInsert m (f r) r = m ++ [(f r, r)] := by
        unfold dictInsert
        rw [if_neg hfr]
      rw [hins]
      have h2 : (keysOf (m ++ [(f r, r)]) ++ t.map f).Nodup := by
        rw [keysOf_append]
        simpa [List.append_assoc] using h
      rw [foldl_dictInsert_fresh f t (m ++ [(f r, r)]) h2]
      simp

/-- C1: for all existing collections E and new collections N with unique
`full_name` keys (the stored-collection invariant) whose new records are
well-formed dicts, `_merge_repos` returns a collection with exactly one
record per `full_name` in `keys E ∪ keys N`; for a `full_name` present in
both, every field of the N record overrides the E record's field, and
fields present only in the E record survive. -/
theorem merge_repos_correct (E N : List Record)
    (hE : (E.map keyOf).Nodup) (hN : (N.map keyOf).Nodup)
    (hfN : ∀ r ∈ N, (keysOf r).Nodup) :
    ((merge_repos E N).map keyOf).Nodup
    ∧ (∀ k, k ∈ (merge_repos E N).map keyOf ↔ k ∈ E.map keyOf ∨ k ∈ N.map keyOf)
    ∧ (∀ rE, rE ∈ E → ∀ rN, rN ∈ N → keyOf rE = keyOf rN →
        ∀ r, r ∈ merge_repos E N → keyOf r = keyOf rE →
          ∀ f, alookup f r = optOr (alookup f rN) (alookup f rE)) := by
  have hm0 : E.foldl (fun m r => dictInsert m (keyOf r) r) [] =
      E.map (fun r => (keyOf r, r)) := by
    have h := foldl_dictInsert_fresh keyOf E ([] : List (String × Record))
      (by simpa [keysOf] using hE)
    simpa using h
  have hres : merge_repos E N =
      (N.foldl mergeStep (E.map (fun r => (keyOf r, r)))).map Prod.snd := by
    unfold merge_repos
    rw [hm0]
  set m1 := N.foldl mergeStep (E.map (fun r => (keyOf r, r))) with hm1
  have hkeys0 : keysOf (E.map (fun r => (keyOf r, r))) = E.map keyOf := by
    simp [keysOf, List.map_map]
  have hentry0 : ∀ e ∈ E.map (fun r => (keyOf r, r)), keyOf e.2 = e.1 := by
    intro e he
    obtain ⟨r, _, rfl⟩ := List.mem_map.mp he
    rfl
  have hentry1 : ∀ e ∈ m1, keyOf e.2 = e.1 :=
    foldl_mergeStep_entry_key N _ hentry0 hfN
  have hknd1 : (keysOf m1).Nodup :=
    foldl_mergeStep_keys_nodup N _ (by rw [hkeys0]; exact hE)
  have hmapkey : (m1.map Prod.snd).map keyOf = keysOf m1 := by
    rw [List.map_map]
    exact List.map_congr_left (fun e he => hentry1 e he)
  refine ⟨?_, ?_, ?_⟩
  · rw [hres, hmapkey]
    exact hknd1
  · intro k
    rw [hres, hmapkey]
    have h := mem_keys_foldl_mergeStep N (E.map (fun r => (keyOf r, r))) k
    rw [hkeys0] at h
    exact h
  · intro rE hrE rN hrN hk r hr hkey f
    rw [hres] at hr
    obtain ⟨e, he, rfl⟩ := List.mem_map.mp hr
    have hefst : e.1 = keyOf rE := by
      rw [← hentry1 e he, hkey]
    have h1 : alookup (keyOf rE) m1 = some e.2 := by
      apply alookup_of_mem_nodup hknd1
      rw [← hefst]
      exact he
    have h2 := alookup_foldl_mergeStep_mem N (E.map (fun r => (keyOf r, r))) rN hN hrN
    have h3 : alookup (keyOf rN) (E.map (fun r => (keyOf r, r))) = some rE := by
      apply alookup_of_mem_nodup (by rw [hkeys0]; exact hE)
      rw [← hk]
      exact List.mem_map.mpr ⟨rE, hrE, rfl⟩
    simp only [h3] at h2
    rw [← hk] at h2
    rw [h1] at h2
    have he2 : e.2 = recordUpdate rE rN := Option.some.inj h2
    rw [he2]
    exact alookup_recordUpdate rE rN (hfN rN hrN) f

/-- Witness for C1 at a concrete pair of collections sharing the key `a`. -/
theorem merge_repos_correct_witness :
    ((([[("full_name", "a"), ("x", "1"), ("y", "2")], [("full_name", "c"), ("z", "3")]] :
        List Record).map keyOf).Nodup
      ∧ (([[("full_name", "a"), ("x", "9")], [("full_name", "b"), ("w", "4")]] :
        List Record).map keyOf).Nodup
      ∧ ∀ r ∈ ([[("full_name", "a"), ("x", "9")], [("full_name", "b"), ("w", "4")]] :
        List Record), (keysOf r).Nodup)
    ∧ (((merge_repos
          [[("full_name", "a"), ("x", "1"), ("y", "2")], [("full_name", "c"), ("z", "3")]]
          [[("full_name", "a"), ("x", "9")], [("full_name", "b"), ("w", "4")]]).map keyOf).Nodup
      ∧ (∀ k, k ∈ (merge_repos
          [[("full_name", "a"), ("x", "1"), ("y", "2")], [("full_name", "c"), ("z", "3")]]
          [[("full_name", "a"), ("x", "9")], [("full_name", "b"), ("w", "4")]]).map keyOf ↔
          k ∈ ([[("full_name", "a"), ("x", "1"), ("y", "2")],
            [("full_name", "c"), ("z", "3")]] : List Record).map keyOf ∨
          k ∈ ([[("full_name", "a"), ("x", "9")],
            [("full_name", "b"), ("w", "4")]] : List Record).map keyOf)
      ∧ (∀ rE, rE ∈ ([[("full_name", "a"), ("x", "1"), ("y", "2")],
            [("full_name", "c"), ("z", "3")]] : List Record) →
          ∀ rN, rN ∈ ([[("full_name", "a"), ("x", "9")],
            [("full_name", "b"), ("w", "4")]] : List Record) → keyOf rE = keyOf rN →
          ∀ r, r ∈ merge_repos
            [[("full_name", "a"), ("x", "1"), ("y", "2")], [("full_name", "c"), ("z", "3")]]
            [[("full_name", "a"), ("x", "9")], [("full_name", "b"), ("w", "4")]] →
            keyOf r = keyOf rE →
          ∀ f, alookup f r = optOr (alookup f rN) (alookup f rE))) :=
  ⟨⟨by decide, by decide, by decide⟩,
    merge_repos_correct
      [[("full_name", "a"), ("x", "1"), ("y", "2")], [("full_name", "c"), ("z", "3")]]
      [[("full_name", "a"), ("x", "9")], [("full_name", "b"), ("w", "4")]]
      (by decide) (by decide) (by decide)⟩

/-- Heap cell read: Python object dereference, with the empty dict as the
out-of-range default. -/
def heapGet (h : List Record) (a : Nat) : Record :=
  h.getD a []

theorem getD_set_self {α : Type} (v d : α) :
    ∀ (l : List α) (i : Nat), i < l.length → (l.set i v).getD i d = v
  | [], _, h => by simp at h
  | _ :: _, 0, _ => rfl
  | x :: t, i + 1, h => by
      simp only [List.set, List.getD_cons_succ]
      exact getD_set_self v d t i (by simpa using h)

theorem getD_set_ne {α : Type} (v d : α) :
    ∀ (l : List α) (i j : Nat), i ≠ j → (l.set i v).getD j d = l.getD j d
  | [], _, _, _ => rfl
  | _ :: _, 0, 0, h => absurd rfl h
  | x :: t, 0, j + 1, _ => by simp [List.set, List.getD_cons_succ]
  | x :: t, i + 1, 0, _ => by simp [List.set, List.getD_cons_zero]
  | x :: t, i + 1, j + 1, h => by
      simp only [List.set, List.getD_cons_succ]
      exact getD_set_ne v d t i j (fun he => h (by rw [he]))

theorem heapGet_set_self (h : List Record) (a : Nat) (v : Record) (ha : a < h.length) :
    heapGet (h.set a v) a = v :=
  getD_set_self v [] h a ha

theorem heapGet_set_ne (h : List Record) (a b : Nat) (v : Record) (hne : a ≠ b) :
    heapGet (h.set a v) b = heapGet h b :=
  getD_set_ne v [] h a b hne

theorem nodup_map_ne {α β : Type} (f : α → β) {l : List α} (h : (l.map f).Nodup)
    {x y : α} (hx : x ∈ l) (hy : y ∈ l) (hne : x ≠ y) : f x ≠ f y := by
  induction l with
  | nil => simp at hx
  | cons a t ih =>
      rw [List.map_cons, List.nodup_cons] at h
      rcases List.mem_cons.mp hx with rfl | hx₂
      · rcases List.mem_cons.mp hy with rfl | hy₂
        · exact absurd rfl hne
        · intro he
          apply h.1
          rw [he]
          exact List.mem_map_of_mem f hy₂
      · rcases List.mem_cons.mp hy with rfl | hy₂
        · intro he
          apply h.1
          rw [← he]
          exact List.mem_map_of_mem f hx₂
        · exact ih h.2 hx₂ hy₂

/-- One iteration of the `for new_repo in new` loop of
`RepoStorage._merge_repos`, at the heap level: the mapping stores object
references (heap addresses), `repo_map[full_name].update(new_repo)` writes
the updated record back through the stored reference, and an unseen key
appends the new record's reference. -/
def mergeLoopStep (p : List Record × List (String × Nat)) (b : Nat) :
    List Record × List (String × Nat) :=
  let k := keyOf (heapGet p.1 b)
  match alookup k p.2 with
  | some a => (p.1.set a (recordUpdate (heapGet p.1 a) (heapGet p.1 b)), p.2)
  | none => (p.1, p.2 ++ [(k, b)])

/-- The `for new_repo in new` loop, processing the list of new record
addresses in order. -/
def mergeLoop : List Nat → (List Record × List (String × Nat)) → List Record × List (String × Nat)
  | [], p => p
  | b :: Q, p => mergeLoop Q (mergeLoopStep p b)

/-- Heap-level model of `RepoStorage._merge_repos` (src/storage.py): the two
input collections are lists of heap addresses of record objects; the result
is the final heap together with the addresses of `repo_map.values()`. -/
def merge_repos_state (heap : List Record) (existing new : List Nat) :
    List Record × List Nat :=
  let repo_map := existing.foldl (fun m a => dictInsert m (keyOf (heapGet heap a)) a) []
  let p := mergeLoop new (heap, repo_map)
  (p.1, p.2.map Prod.snd)

theorem mergeLoop_keeps (heap : List Record) (E N : List Nat)
    (hdisj : ∀ a ∈ E, a ∉ N)
    (hNknd : (N.map (fun b => keyOf (heapGet heap b))).Nodup) :
    ∀ (Q : List Nat) (h : List Record) (m : List (String × Nat)),
      Q.Nodup → (∀ b ∈ Q, b ∈ N) →
      (∀ b ∈ Q, heapGet h b = heapGet heap b) →
      (∀ e ∈ m, e.1 = keyOf (heapGet heap e.2) ∧ (e.2 ∈ E ∨ (e.2 ∈ N ∧ e.2 ∉ Q))) →
      ∀ x, (x ∉ E ∨ keyOf (heapGet heap x) ∉ Q.map (fun b => keyOf (heapGet heap b))) →
        heapGet (mergeLoop Q (h, m)).1 x = heapGet h x
  | [], h, m, _, _, _, _, x, _ => rfl
  | b :: Q', h, m, hnd, hQN, hQh, hm, x, hx => by
      rw [List.nodup_cons] at hnd
      have hb : heapGet h b = heapGet heap b := hQh b (List.mem_cons_self _ _)
      have hbN : b ∈ N := hQN b (List.mem_cons_self _ _)
      have hx' : x ∉ E ∨ keyOf (heapGet heap x) ∉
          Q'.map (fun b => keyOf (heapGet heap b)) := by
        rcases hx with hx | hx
        · exact Or.inl hx
        · refine Or.inr (fun hmem => hx ?_)
          rw [List.map_cons]
          exact List.mem_cons_of_mem _ hmem
      show heapGet (mergeLoop Q' (mergeLoopStep (h, m) b)).1 x = heapGet h x
      cases halook : alookup (keyOf (heapGet h b)) m with
      | none =>
          have hstep : mergeLoopStep (h, m) b = (h, m ++ [(keyOf (heapGet h b), b)]) := by
            show (match alookup (keyOf (heapGet h b)) m with
                  | some a => (h.set a (recordUpdate (heapGet h a) (heapGet h b)), m)
                  | none => (h, m ++ [(keyOf (heapGet h b), b)])) = _
            rw [halook]
          rw [hstep]
          exact mergeLoop_keeps heap E N hdisj hNknd Q' h
            (m ++ [(keyOf (heapGet h b), b)]) hnd.2
            (fun b' hb' => hQN b' (List.mem_cons_of_mem _ hb'))
            (fun b' hb' => hQh b' (List.mem_cons_of_mem _ hb'))
            (fun e he => by
              rcases List.mem_append.mp he with he | he
              · obtain ⟨h1, h2⟩ := hm e he
                refine ⟨h1, ?_⟩
                rcases h2 with h2 | h2
                · exact Or.inl h2
                · exact Or.inr ⟨h2.1, fun hq => h2.2 (List.mem_cons_of_mem _ hq)⟩
              · rw [List.mem_singleton] at he
                subst he
                exact ⟨by rw [hb], Or.inr ⟨hbN, hnd.1⟩⟩)
            x hx'
      | some a =>
          obtain ⟨hma1, hma2⟩ := hm _ (alookup_mem halook)
          have hk : keyOf (heapGet heap b) = keyOf (heapGet heap a) := by
            rw [← congrArg keyOf hb]
            exact hma1
          have hma2' : a ∈ E ∨ (a ∈ N ∧ a ∉ b :: Q') := hma2
          have haE : a ∈ E := by
            rcases hma2' with hA | hA
            · exact hA
            · exfalso
              have hab : b ≠ a := fun he => hA.2 (he ▸ List.mem_cons_self b Q')
              exact nodup_map_ne _ hNknd hbN hA.1 hab hk
          have hax : a ≠ x := by
            rcases hx with hx | hx
            · exact fun he => hx (he ▸ haE)
            · intro he
              apply hx
              rw [List.map_cons]
              refine List.mem_cons.mpr (Or.inl ?_)
              rw [← he, ← hk]
          have hstep : mergeLoopStep (h, m) b =
              (h.set a (recordUpdate (heapGet h a) (heapGet h b)), m) := by
            show (match alookup (keyOf (heapGet h b)) m with
                  | some a => (h.set a (recordUpdate (heapGet h a) (heapGet h b)), m)
                  | none => (h, m ++ [(keyOf (heapGet h b), b)])) = _
            rw [halook]
          rw [hstep]
          have hres := mergeLoop_keeps heap E N hdisj hNknd Q'
            (h.set a (recordUpdate (heapGet h a) (heapGet h b))) m hnd.2
            (fun b' hb' => hQN b' (List.mem_cons_of_mem _ hb'))
            (fun b' hb' => by
              have hab' : a ≠ b' := by
                intro he
                exact hdisj a haE (he ▸ hQN b' (List.mem_cons_of_mem _ hb'))
              rw [heapGet_set_ne _ _ _ _ hab']
              exact hQh b' (List.mem_cons_of_mem _ hb'))
            (fun e he => by
              obtain ⟨h1, h2⟩ := hm e he
              refine ⟨h1, ?_⟩
              rcases h2 with h2 | h2
              · exact Or.inl h2
              · exact Or.inr ⟨h2.1, fun hq => h2.2 (List.mem_cons_of_mem _ hq)⟩)
            x hx'
          rw [hres]
          exact heapGet_set_ne _ _ _ _ hax

theorem mergeLoop_updates (heap : List Record) (E N : List Nat)
    (hdisj : ∀ a ∈ E, a ∉ N)
    (hNknd : (N.map (fun b => keyOf (heapGet heap b))).Nodup) :
    ∀ (Q : List Nat) (h : List Record) (m : List (String × Nat)),
      Q.Nodup → (∀ b ∈ Q, b ∈ N) →
      (Q.map (fun b => keyOf (heapGet heap b))).Nodup →
      (∀ b ∈ Q, heapGet h b = heapGet heap b) →
      (∀ e ∈ m, e.1 = keyOf (heapGet heap e.2) ∧ (e.2 ∈ E ∨ (e.2 ∈ N ∧ e.2 ∉ Q))) →
      ∀ a b₀, a ∈ E → b₀ ∈ Q → keyOf (heapGet heap b₀) = keyOf (heapGet heap a) →
        heapGet h a = heapGet heap a →
        alookup (keyOf (heapGet heap a)) m = some a →
        a < h.length →
        heapGet (mergeLoop Q (h, m)).1 a =
          recordUpdate (heapGet heap a) (heapGet heap b₀)
  | [], _, _, _, _, _, _, _, _, b₀, _, hb₀Q, _, _, _, _ =>
      absurd hb₀Q (List.not_mem_nil b₀)
  | b :: Q', h, m, hnd, hQN, hQknd, hQh, hm, a, b₀, haE, hb₀Q, hkey, hha, halooka, halen => by
      rw [List.nodup_cons] at hnd
      rw [List.map_cons, List.nodup_cons] at hQknd
      have hb : heapGet h b = heapGet heap b := hQh b (List.mem_cons_self _ _)
      have hbN : b ∈ N := hQN b (List.mem_cons_self _ _)
      show heapGet (mergeLoop Q' (mergeLoopStep (h, m) b)).1 a = _
      by_cases hbb : b = b₀
      · subst hbb
        have hkb : keyOf (heapGet h b) = keyOf (heapGet heap a) := by
          rw [hb, hkey]
        have halook : alookup (keyOf (heapGet h b)) m = some a := by
          rw [hkb]
          exact halooka
        have hstep : mergeLoopStep (h, m) b =
            (h.set a (recordUpdate (heapGet h a) (heapGet h b)), m) := by
          show (match alookup (keyOf (heapGet h b)) m with
                | some a => (h.set a (recordUpdate (heapGet h a) (heapGet h b)), m)
                | none => (h, m ++ [(keyOf (heapGet h b), b)])) = _
          rw [halook]
        rw [hstep]
        have harg : h.set a (recordUpdate (heapGet h a) (heapGet h b)) =
            h.set a (recordUpdate (heapGet heap a) (heapGet heap b)) := by
          rw [hha, hb]
        rw [harg]
        have hkeep := mergeLoop_keeps heap E N hdisj hNknd Q'
          (h.set a (recordUpdate (heapGet heap a) (heapGet heap b))) m hnd.2
          (fun b' hb' => hQN b' (List.mem_cons_of_mem _ hb'))
          (fun b' hb' => by
            have hab' : a ≠ b' := fun he =>
              hdisj a haE (he ▸ hQN b' (List.mem_cons_of_mem _ hb'))
            rw [heapGet_set_ne _ _ _ _ hab']
            exact hQh b' (List.mem_cons_of_mem _ hb'))
          (fun e he => by
            obtain ⟨h1, h2⟩ := hm e he
            refine ⟨h1, ?_⟩
            rcases h2 with h2 | h2
            · exact Or.inl h2
            · exact Or.inr ⟨h2.1, fun hq => h2.2 (List.mem_cons_of_mem _ hq)⟩)
          a (Or.inr (by rw [← hkey]; exact hQknd.1))
        rw [hkeep]
        exact heapGet_set_self _ _ _ halen
      · have hb₀Q' : b₀ ∈ Q' := by
          rcases List.mem_cons.mp hb₀Q with h' | h'
          · exact absurd h'.symm hbb
          · exact h'
        have hkbne : keyOf (heapGet heap b) ≠ keyOf (heapGet heap a) := by
          rw [← hkey]
          exact nodup_map_ne _ hNknd hbN (hQN b₀ hb₀Q) hbb
        cases halook : alookup (keyOf (heapGet h b)) m with
        | none =>
            have hstep : mergeLoopStep (h, m) b = (h, m ++ [(keyOf (heapGet h b), b)]) := by
              show (match alookup (keyOf (heapGet h b)) m with
                    | some a => (h.set a (recordUpdate (heapGet h a) (heapGet h b)), m)
                    | none => (h, m ++ [(keyOf (heapGet h b), b)])) = _
              rw [halook]
            rw [hstep]
            exact mergeLoop_updates heap E N hdisj hNknd Q' h
              (m ++ [(keyOf (heapGet h b), b)]) hnd.2
              (fun b' hb' => hQN b' (List.mem_cons_of_mem _ hb'))
              hQknd.2
              (fun b' hb' => hQh b' (List.mem_cons_of_mem _ hb'))
              (fun e he => by
                rcases List.mem_append.mp he with he | he
                · obtain ⟨h1, h2⟩ := hm e he
                  refine ⟨h1, ?_⟩
                  rcases h2 with h2 | h2
                  · exact Or.inl h2
                  · exact Or.inr ⟨h2.1, fun hq => h2.2 (List.mem_cons_of_mem _ hq)⟩
                · rw [List.mem_singleton] at he
                  subst he
                  exact ⟨by rw [hb], Or.inr ⟨hbN, hnd.1⟩⟩)
              a b₀ haE hb₀Q' hkey hha
              (by rw [alookup_append, halooka]) halen
        | some a' =>
            obtain ⟨hma1, hma2⟩ := hm _ (alookup_mem halook)
            have hk' : keyOf (heapGet heap b) = keyOf (heapGet heap a') := by
              rw [← congrArg keyOf hb]
              exact hma1
            have hma2' : a' ∈ E ∨ (a' ∈ N ∧ a' ∉ b :: Q') := hma2
            have ha'E : a' ∈ E := by
              rcases hma2' with hA | hA
              · exact hA
              · exfalso
                have hab : b ≠ a' := fun he => hA.2 (he ▸ List.mem_cons_self b Q')
                exact nodup_map_ne _ hNknd hbN hA.1 hab hk'
            have ha'a : a' ≠ a := fun he => hkbne (by rw [hk', he])
            have hstep : mergeLoopStep (h, m) b =
                (h.set a' (recordUpdate (heapGet h a') (heapGet h b)), m) := by
              show (match alookup (keyOf (heapGet h b)) m with
                    | some a => (h.set a (recordUpdate (heapGet h a) (heapGet h b)), m)
                    | none => (h, m ++ [(keyOf (heapGet h b), b)])) = _
              rw [halook]
            rw [hstep]
            exact mergeLoop_updates heap E N hdisj hNknd Q'
              (h.set a' (recordUpdate (heapGet h a') (heapGet h b))) m hnd.2
              (fun b' hb' => hQN b' (List.mem_cons_of_mem _ hb'))
              hQknd.2
              (fun b' hb' => by
                have hab' : a' ≠ b' := fun he =>
                  hdisj a' ha'E (he ▸ hQN b' (List.mem_cons_of_mem _ hb'))
                rw [heapGet_set_ne _ _ _ _ hab']
                exact hQh b' (List.mem_cons_of_mem _ hb'))
              (fun e he => by
                obtain ⟨h1, h2⟩ := hm e he
                refine ⟨h1, ?_⟩
                rcases h2 with h2 | h2
                · exact Or.inl h2
                · exact Or.inr ⟨h2.1, fun hq => h2.2 (List.mem_cons_of_mem _ hq)⟩)
              a b₀ haE hb₀Q' hkey
              (by rw [heapGet_set_ne _ _ _ _ ha'a]; exact hha)
              halooka
              (by rw [List.length_set]; exact halen)

/-- C7 (amended): `_merge_repos` leaves the input address lists untouched and
mutates no record of `new` and no record of `existing` whose `full_name` does
not occur among the keys of `new`; a record of `existing` whose key does occur
in `new` is updated in place, field by field, with the matching new record.
Hypotheses: valid and non-aliased addresses, and unique keys inside each
collection (the stored-collection invariant). -/
theorem merge_repos_state_frame (heap : List Record) (E N : List Nat)
    (hEv : ∀ a ∈ E, a < heap.length)
    (hdisj : ∀ a ∈ E, a ∉ N)
    (hEknd : (E.map (fun a => keyOf (heapGet heap a))).Nodup)
    (hNknd : (N.map (fun b => keyOf (heapGet heap b))).Nodup) :
    (∀ x, x ∉ E → heapGet (merge_repos_state heap E N).1 x = heapGet heap x)
    ∧ (∀ a ∈ E, keyOf (heapGet heap a) ∉ N.map (fun b => keyOf (heapGet heap b)) →
        heapGet (merge_repos_state heap E N).1 a = heapGet heap a)
    ∧ (∀ a ∈ E, ∀ b ∈ N, keyOf (heapGet heap b) = keyOf (heapGet heap a) →
        heapGet (merge_repos_state heap E N).1 a =
          recordUpdate (heapGet heap a) (heapGet heap b)) := by
  have hNnd : N.Nodup := List.Nodup.of_map _ hNknd
  have hm0 : E.foldl (fun m a => dictInsert m (keyOf (heapGet heap a)) a) [] =
      E.map (fun a => (keyOf (heapGet heap a), a)) := by
    have h := foldl_dictInsert_fresh (fun a => keyOf (heapGet heap a)) E
      ([] : List (String × Nat)) (by simpa [keysOf] using hEknd)
    simpa using h
  have hstate : (merge_repos_state heap E N).1 =
      (mergeLoop N (heap, E.map (fun a => (keyOf (heapGet heap a), a)))).1 := by
    show (mergeLoop N (heap, E.foldl
      (fun m a => dictInsert m (keyOf (heapGet heap a)) a) [])).1 = _
    rw [hm0]
  have hminv : ∀ e ∈ E.map (fun a => (keyOf (heapGet heap a), a)),
      e.1 = keyOf (heapGet heap e.2) ∧ (e.2 ∈ E ∨ (e.2 ∈ N ∧ e.2 ∉ N)) := by
    intro e he
    obtain ⟨a, ha, rfl⟩ := List.mem_map.mp he
    exact ⟨rfl, Or.inl ha⟩
  refine ⟨?_, ?_, ?_⟩
  · intro x hx
    rw [hstate]
    exact mergeLoop_keeps heap E N hdisj hNknd N heap _ hNnd (fun b hb => hb)
      (fun b _ => rfl) hminv x (Or.inl hx)
  · intro a _ hk
    rw [hstate]
    exact mergeLoop_keeps heap E N hdisj hNknd N heap _ hNnd (fun b hb => hb)
      (fun b _ => rfl) hminv a (Or.inr hk)
  · intro a haE b hbN hk
    rw [hstate]
    have hm0look : alookup (keyOf (heapGet heap a))
        (E.map (fun a => (keyOf (heapGet heap a), a))) = some a := by
      apply alookup_of_mem_nodup
      · have : keysOf (E.map (fun a => (keyOf (heapGet heap a), a))) =
            E.map (fun a => keyOf (heapGet heap a)) := by
          simp [keysOf, List.map_map]
        rw [this]
        exact hEknd
      · exact List.mem_map.mpr ⟨a, haE, rfl⟩
    exact mergeLoop_updates heap E N hdisj hNknd N heap _ hNnd (fun b hb => hb)
      hNknd (fun b _ => rfl) hminv a b haE hbN hk rfl hm0look (hEv a haE)

/-- C7 counterexample: `_merge_repos` is not pure on records. With one
existing record and one new record sharing `full_name` `a`, the call mutates
the record object held by the `existing` collection: its heap cell changes
from `x = 1` to `x = 2`. -/
theorem merge_repos_state_mutates_existing :
    heapGet (merge_repos_state
        [[("full_name", "a"), ("x", "1")], [("full_name", "a"), ("x", "2")]]
        [0] [1]).1 0
      = [("full_name", "a"), ("x", "2")]
    ∧ heapGet (merge_repos_state
        [[("full_name", "a"), ("x", "1")], [("full_name", "a"), ("x", "2")]]
        [0] [1]).1 0
      ≠ heapGet [[("full_name", "a"), ("x", "1")], [("full_name", "a"), ("x", "2")]] 0 := by
  constructor
  · decide
  · decide

/-- Witness for the amended C7 at a concrete heap: address 2 (not in the
inputs), address 1 (the new record) and address 3 (an existing record whose
key is not among the new keys) are untouched; address 0 is updated in place
with the matching new record's fields. -/
theorem merge_repos_state_frame_witness :
    ((∀ a ∈ [0, 3], a < ([[("full_name", "a"), ("x", "1")], [("full_name", "a"), ("x", "2")],
        [("full_name", "q")], [("full_name", "d")]] : List Record).length)
      ∧ (∀ a ∈ [0, 3], a ∉ [1])
      ∧ (([0, 3].map (fun a => keyOf (heapGet [[("full_name", "a"), ("x", "1")],
          [("full_name", "a"), ("x", "2")], [("full_name", "q")], [("full_name", "d")]] a))).Nodup)
      ∧ (([1].map (fun b => keyOf (heapGet [[("full_name", "a"), ("x", "1")],
          [("full_name", "a"), ("x", "2")], [("full_name", "q")], [("full_name", "d")]] b))).Nodup))
    ∧ ((∀ x, x ∉ [0, 3] →
        heapGet (merge_repos_state [[("full_name", "a"), ("x", "1")],
          [("full_name", "a"), ("x", "2")], [("full_name", "q")], [("full_name", "d")]]
          [0, 3] [1]).1 x
          = heapGet [[("full_name", "a"), ("x", "1")], [("full_name", "a"), ("x", "2")],
            [("full_name", "q")], [("full_name", "d")]] x)
      ∧ (∀ a ∈ [0, 3], keyOf (heapGet [[("full_name", "a"), ("x", "1")],
          [("full_name", "a"), ("x", "2")], [("full_name", "q")], [("full_name", "d")]] a) ∉
          ([1].map (fun b => keyOf (heapGet [[("full_name", "a"), ("x", "1")],
            [("full_name", "a"), ("x", "2")], [("full_name", "q")], [("full_name", "d")]] b))) →
          heapGet (merge_repos_state [[("full_name", "a"), ("x", "1")],
            [("full_name", "a"), ("x", "2")], [("full_name", "q")], [("full_name", "d")]]
            [0, 3] [1]).1 a
            = heapGet [[("full_name", "a"), ("x", "1")], [("full_name", "a"), ("x", "2")],
              [("full_name", "q")], [("full_name", "d")]] a)
      ∧ (∀ a ∈ [0, 3], ∀ b ∈ [1],
          keyOf (heapGet [[("full_name", "a"), ("x", "1")], [("full_name", "a"), ("x", "2")],
            [("full_name", "q")], [("full_name", "d")]] b)
            = keyOf (heapGet [[("full_name", "a"), ("x", "1")], [("full_name", "a"), ("x", "2")],
              [("full_name", "q")], [("full_name", "d")]] a) →
          heapGet (merge_repos_state [[("full_name", "a"), ("x", "1")],
            [("full_name", "a"), ("x", "2")], [("full_name", "q")], [("full_name", "d")]]
            [0, 3] [1]).1 a
            = recordUpdate (heapGet [[("full_name", "a"), ("x", "1")],
                [("full_name", "a"), ("x", "2")], [("full_name", "q")], [("full_name", "d")]] a)
              (heapGet [[("full_name", "a"), ("x", "1")], [("full_name", "a"), ("x", "2")],
                [("full_name", "q")], [("full_name", "d")]] b))) :=
  ⟨⟨by decide, by decide, by decide, by decide⟩,
    merge_repos_state_frame
      [[("full_name", "a"), ("x", "1")], [("full_name", "a"), ("x", "2")],
        [("full_name", "q")], [("full_name", "d")]]
      [0, 3] [1] (by decide) (by decide) (by decide) (by decide)⟩

/-- ASCII fragment of the Python regex class `\s` (the inputs handled by the
scraper's GitHub-URL pattern are ASCII). -/
def isPySpace (c : Char) : Bool :=
  c = ' ' || c = '\t' || c = '\n' || c = '\r' || c = '\x0b' || c = '\x0c'

/-- Stop characters of the name group `[^/#?\s)]+` of the GitHub-URL regex in
`RepoScraper.__init__` (src/scraper.py). -/
def isNameStop (c : Char) : Bool :=
  c = '/' || c = '#' || c = '?' || c = ')' || isPySpace c

/-- Drop a literal prefix, or fail. -/
def dropLit : List Char → List Char → Option (List Char)
  | [], cs => some cs
  | _ :: _, [] => none
  | l :: lt, c :: ct => if c = l then dropLit lt ct else none

/-- Match the pattern `https?://(?:www\.)?github\.com/([^/]+)/([^/#?\s)]+)`
at the head of the input; on success return the two capture groups (owner,
name) and the remaining input after the match. The optional pieces follow
the greedy regex semantics: `s` and `www.` are consumed exactly when the
literally following text keeps the match alive, which for these literals
coincides with consuming them whenever present. -/
def tryMatch (cs : List Char) : Option (List Char × List Char × List Char) :=
  match dropLit ("http".toList) cs with
  | none => none
  | some r1 =>
    let r2 := match r1 with
      | 's' :: t => t
      | _ => r1
    match dropLit ("://".toList) r2 with
    | none => none
    | some r3 =>
      let r4 := match dropLit ("www.".toList) r3 with
        | some t => t
        | none => r3
      match dropLit ("github.com/".toList) r4 with
      | none => none
      | some r5 =>
        match r5.span (fun c => !(c = '/')) with
        | ([], _) => none
        | (own, r6) =>
          match r6 with
          | '/' :: r7 =>
            match r7.span (fun c => !(isNameStop c)) with
            | ([], _) => none
            | (nm, r8) => some (own, nm, r8)
          | _ => none

/-- Scan for non-overlapping matches left to right, as `finditer`: at each
position try a match; on success continue after the match, else advance one
character. The fuel argument bounds the recursion and is set to the input
length, which a scan never exceeds. -/
def scanAux : Nat → List Char → List (List Char × List Char)
  | 0, _ => []
  | _ + 1, [] => []
  | fuel + 1, c :: t =>
    match tryMatch (c :: t) with
    | some (own, nm, rest) => (own, nm) :: scanAux fuel rest
    | none => scanAux fuel t

/-- All matches of the GitHub-URL pattern in the input, in order. -/
def findMatches (cs : List Char) : List (List Char × List Char) :=
  scanAux cs.length cs

/-- Python `repo_name.rstrip(".")`: remove trailing dot characters. -/
def rstripDots (s : List Char) : List Char :=
  (s.reverse.dropWhile (fun c => c = '.')).reverse

/-- The repository dict appended by `RepoScraper._extract_repos` for a match. -/
def mkRepoRecord (owner name : String) : Record :=
  [("owner", owner), ("name", name), ("full_name", owner ++ "/" ++ name),
   ("url", "https://github.com/" ++ (owner ++ "/" ++ name))]

/-- The deduplication key of a raw match: `owner/name` after stripping
trailing dots from the captured name. -/
def matchKey (m : List Char × List Char) : String :=
  m.1.asString ++ "/" ++ (rstripDots m.2).asString

/-- The `for match in matches` loop of `RepoScraper._extract_repos`
(src/scraper.py): strip trailing dots from the name, skip keys already seen,
append the record and remember the key otherwise. -/
def extractLoop : List (List Char × List Char) → List String → List Record
  | [], _ => []
  | m :: rest, seen =>
    let name := rstripDots m.2
    let key := m.1.asString ++ "/" ++ name.asString
    if key ∈ seen then extractLoop rest seen
    else mkRepoRecord m.1.asString name.asString :: extractLoop rest (seen ++ [key])

/-- Model of `RepoScraper._extract_repos` (src/scraper.py). -/
def extract_repos (content : List Char) : List Record :=
  extractLoop (findMatches content) []

/-- First-occurrence deduplication: keep each value at its first position and
drop later repetitions (specification-side definition for comparison). -/
def firstDedup : List String → List String
  | [] => []
  | a :: t => a :: firstDedup (t.filter (fun b => decide (b ≠ a)))
  termination_by l => l.length
  decreasing_by
    exact Nat.lt_succ_of_le (List.length_filter_le _ _)

theorem mem_of_mem_firstDedup : ∀ (l : List String) (x : String),
    x ∈ firstDedup l → x ∈ l
  | [], x, h => by simp [firstDedup] at h
  | a :: t, x, h => by
      rw [firstDedup] at h
      rcases List.mem_cons.mp h with h | h
      · exact h ▸ List.mem_cons_self _ _
      · have hx := mem_of_mem_firstDedup _ x h
        exact List.mem_cons_of_mem _ (List.mem_of_mem_filter hx)
  termination_by l => l.length
  decreasing_by
    exact Nat.lt_succ_of_le (List.length_filter_le _ _)

theorem nodup_firstDedup : ∀ l : List String, (firstDedup l).Nodup
  | [] => by simp [firstDedup]
  | a :: t => by
      rw [firstDedup, List.nodup_cons]
      refine ⟨fun hmem => ?_, nodup_firstDedup _⟩
      have hx := mem_of_mem_firstDedup _ a hmem
      have := List.of_mem_filter hx
      simp at this
  termination_by l => l.length
  decreasing_by
    exact Nat.lt_succ_of_le (List.length_filter_le _ _)

theorem keyOf_mkRepoRecord (o n : String) : keyOf (mkRepoRecord o n) = o ++ "/" ++ n := by
  rfl

theorem extractLoop_keys : ∀ (ms : List (List Char × List Char)) (seen : List String),
    (extractLoop ms seen).map keyOf =
      firstDedup ((ms.map matchKey).filter (fun k => decide (k ∉ seen)))
  | [], seen => by simp [extractLoop, firstDedup]
  | m :: rest, seen => by
      show (if matchKey m ∈ seen then extractLoop rest seen
            else mkRepoRecord m.1.asString (rstripDots m.2).asString ::
              extractLoop rest (seen ++ [matchKey m])).map keyOf = _
      by_cases hs : matchKey m ∈ seen
      · rw [if_pos hs, extractLoop_keys rest seen]
        have : (List.map matchKey (m :: rest)).filter (fun k => decide (k ∉ seen)) =
            (List.map matchKey rest).filter (fun k => decide (k ∉ seen)) := by
          rw [List.map_cons, List.filter_cons]
          simp [hs]
        rw [this]
      · rw [if_neg hs, List.map_cons, extractLoop_keys rest (seen ++ [matchKey m])]
        have hhead : keyOf (mkRepoRecord m.1.asString (rstripDots m.2).asString) =
            matchKey m := keyOf_mkRepoRecord _ _
        rw [hhead]
        have hrhs : (List.map matchKey (m :: rest)).filter (fun k => decide (k ∉ seen)) =
            matchKey m :: (List.map matchKey rest).filter (fun k => decide (k ∉ seen)) := by
          rw [List.map_cons, List.filter_cons]
          simp [hs]
        rw [hrhs, firstDedup]
        congr 1
        rw [List.filter_filter]
        apply congrArg
        apply List.filter_congr
        intro k _
        by_cases h1 : k ∈ seen
        · simp [h1]
        · by_cases h2 : k = matchKey m <;> simp [h1, h2]

/-- C2: for every markdown input, `_extract_repos` returns the repository
records in first-occurrence order of their `owner/name` identity,
deduplucated by `full_name` with trailing dots stripped from the captured
name before deduplication; on the concrete inputs of the claim, three links
to owner1/repo1, owner2/repo2 and owner1/repo1 again yield exactly those two
records in order, and `(https://github.com/owner/repo).` yields the name
`repo`, never `repo.`. -/
theorem extract_repos_spec :
    (∀ content : List Char,
        (extract_repos content).map keyOf =
          firstDedup ((findMatches content).map matchKey)
        ∧ ((extract_repos content).map keyOf).Nodup)
    ∧ extract_repos ("See https://github.com/owner1/repo1 and https://github.com/owner2/repo2 plus https://github.com/owner1/repo1 again".toList)
        = [mkRepoRecord "owner1" "repo1", mkRepoRecord "owner2" "repo2"]
    ∧ extract_repos ("(https://github.com/owner/repo).".toList)
        = [mkRepoRecord "owner" "repo"]
    ∧ alookup "name" (mkRepoRecord "owner" "repo") = some "repo"
    ∧ extract_repos ("See https://github.com/o/r. and https://github.com/o/r again".toList)
        = [mkRepoRecord "o" "r"] := by
  refine ⟨fun content => ?_, by decide, by decide, by decide, by decide⟩
  have h := extractLoop_keys (findMatches content) []
  have hfilter : ((findMatches content).map matchKey).filter
      (fun k => decide (k ∉ ([] : List String))) =
      (findMatches content).map matchKey := by
    apply List.filter_eq_self.mpr
    intro a _
    simp
  rw [hfilter] at h
  exact ⟨h, h ▸ nodup_firstDedup _⟩

/-- Values stored under the loosely typed `value` key of indicator dicts. -/
inductive PyVal : Type
  | s (v : String)
  | n (v : Nat)
  | b (v : Bool)
deriving DecidableEq

/-- An indicator dict of `skill_detector.py`: a `type` tag, a raw `value`,
an optional `skill_count` contribution, and (for the tree marker indicator)
the list of matching paths. -/
structure Indicator : Type where
  typ : String
  val : PyVal
  skill_count : Option Nat
  paths : Option (List String)
deriving DecidableEq

/-- The detection result dict of `SkillDetector.detect_skills`. -/
structure DetectionResult : Type where
  is_skill_repo : Bool
  skill_count : Nat
  structureVal : Option String
  confidence : ℚ
  indicators : List Indicator

/-- Model of `SkillDetector.detect_skills` (src/skill_detector.py) after the
two network passes: the README indicators and tree indicators are
concatenated; `is_skill_repo` is nonemptiness, `confidence` is
`min(len * 0.3, 1.0)` (exact rational arithmetic stands in for the float
expression, `0.3 = 3/10`), `structure` stays `None`, and `skill_count` sums
the `skill_count` contribution of every indicator carrying one. -/
def detect_skills (readmeInd treeInd : List Indicator) : DetectionResult :=
  let indicators := readmeInd ++ treeInd
  { is_skill_repo := decide (0 < indicators.length),
    confidence := min ((indicators.length : ℚ) * (3 / 10)) 1,
    skill_count := indicators.foldl (fun acc i =>
      match i.skill_count with
      | some v => acc + v
      | none => acc) 0,
    structureVal := none,
    indicators := indicators }

/-- C4: for every detection pass producing n indicators, the detection
record satisfies `confidence = min(0.3 * n, 1.0)` and
`is_skill_repo = (n > 0)`. -/
theorem detect_skills_confidence_formula (readmeInd treeInd : List Indicator) :
    (detect_skills readmeInd treeInd).confidence =
      min ((3 / 10 : ℚ) * ((readmeInd ++ treeInd).length : ℚ)) 1
    ∧ ((detect_skills readmeInd treeInd).is_skill_repo = true ↔
        0 < (readmeInd ++ treeInd).length) := by
  constructor
  · show min (((readmeInd ++ treeInd).length : ℚ) * (3 / 10)) 1 = _
    rw [mul_comm]
  · simp [detect_skills]

/-- Python `p.endswith(suf)`. -/
def strEndsWith (p suf : String) : Bool :=
  decide (p.toList.drop (p.toList.length - suf.toList.length) = suf.toList)

/-- Python `p.startswith(pre)`. -/
def strStartsWith (p pre : String) : Bool :=
  decide (p.toList.take pre.toList.length = pre.toList)

/-- Helper of `splitSlash`: accumulate the current segment (reversed). -/
def splitSlashAux : List Char → List Char → List String
  | [], acc => [acc.reverse.asString]
  | c :: t, acc =>
      if c = '/' then acc.reverse.asString :: splitSlashAux t []
      else splitSlashAux t (c :: acc)

/-- Python `p.split("/")`: the slash-separated segments of a path string. -/
def splitSlash (p : String) : List String :=
  splitSlashAux p.toList []

/-- Model of the indicator computation of `SkillDetector._check_repo_tree`
(src/skill_detector.py) on a fetched tree listing: collect the paths whose
path string ends with `SKILL.md` (one indicator carrying them, when any),
then check for a `skills` folder (one fixed-estimate indicator, when
present). -/
def check_repo_tree_indicators (tree : List String) : List Indicator :=
  let skill_md_files := tree.filter (fun p => strEndsWith p "SKILL.md")
  let i1 : List Indicator :=
    if skill_md_files.isEmpty then []
    else [{ typ := "repo_skill_md_files", val := .n skill_md_files.length,
            skill_count := some skill_md_files.length, paths := some skill_md_files }]
  let skills_folder := tree.any (fun p => strStartsWith p "skills/" || p == "skills")
  i1 ++ (if skills_folder then
    [{ typ := "repo_skills_folder", val := .b true, skill_count := some 5, paths := none }]
  else [])

/-- Modelled from the spec: the set of marker paths the specification
describes, namely the paths whose final path component equals the marker
filename `SKILL.md`, excluding any path containing the version-control
internal directory segment `.git` (spec-side definition, for comparison
with the code's collection). -/
def specMarkerPaths (tree : List String) : List String :=
  tree.filter (fun p =>
    ((splitSlash p).getLastD "" == "SKILL.md") && !((splitSlash p).contains ".git"))

/-- C5 counterexample: on the tree listing `[docs/mySKILL.md]` the spec's
collection is empty (final component `mySKILL.md` is not the marker
filename), but the code's suffix test matches and emits a marker indicator
carrying that path. -/
theorem check_repo_tree_endswith_counterexample :
    specMarkerPaths ["docs/mySKILL.md"] = []
    ∧ check_repo_tree_indicators ["docs/mySKILL.md"] =
        [{ typ := "repo_skill_md_files", val := .n 1, skill_count := some 1,
           paths := some ["docs/mySKILL.md"] }] := by
  constructor
  · decide
  · decide

/-- C5 (amended): the marker-file indicator of the tree scan collects
exactly the paths whose path string ends with the literal suffix `SKILL.md`
(also matching, e.g., `mySKILL.md`, and with no exclusion of
version-control segments); when that list is non-empty, exactly one marker
indicator is emitted, with `skill_count` the number of such paths and
carrying the list. -/
theorem check_repo_tree_marker_indicator (tree : List String) :
    (check_repo_tree_indicators tree).filter (fun i => i.typ == "repo_skill_md_files") =
      (if (tree.filter (fun p => strEndsWith p "SKILL.md")).isEmpty then []
       else [{ typ := "repo_skill_md_files",
               val := .n (tree.filter (fun p => strEndsWith p "SKILL.md")).length,
               skill_count := some (tree.filter (fun p => strEndsWith p "SKILL.md")).length,
               paths := some (tree.filter (fun p => strEndsWith p "SKILL.md")) }]) := by
  unfold check_repo_tree_indicators
  by_cases h1 : (tree.filter (fun p => strEndsWith p "SKILL.md")).isEmpty <;>
    by_cases h2 : tree.any (fun p => strStartsWith p "skills/" || p == "skills") <;>
      simp [h1, h2, List.filter_append]

/-- Python `s.lower()` on the relevant ASCII content. -/
def toLowerL (l : List Char) : List Char :=
  l.map Char.toLower

/-- Bool test that the second list starts with the first. -/
def leadsWith : List Char → List Char → Bool
  | [], _ => true
  | _ :: _, [] => false
  | a :: s, c :: l => (a == c) && leadsWith s l

/-- Python `sub in s`: substring occurrence test. -/
def containsSub : List Char → List Char → Bool
  | [], sub => leadsWith sub []
  | c :: t, sub => leadsWith sub (c :: t) || containsSub t sub

/-- The provenance footer appended by `SkillExtractor._enrich_skill_metadata`
(src/skill_extractor.py); the `:.0%` float rendering of the detection
confidence is abstracted as the pre-rendered percentage string `confPct`. -/
def enrichFooter (full_name url confPct skill_name : String) : String :=
  "\n\n---\n**Extracted from**: [" ++ full_name ++ "](" ++ url ++
    ")\n**Detection confidence**: " ++ confPct ++
    "\n**Installed as**: " ++ skill_name ++ "\n"

/-- Model of `SkillExtractor._enrich_skill_metadata` on the staged marker
document content: append the provenance footer unless the lower-cased
document already contains the guard token `extracted-from:`. -/
def enrich_skill_metadata (content full_name url confPct skill_name : String) : String :=
  if containsSub (toLowerL content.toList) ("extracted-from:".toList) then content
  else content ++ enrichFooter full_name url confPct skill_name

/-- C8 is a code bug: enrichment is not idempotent. The footer the code
writes lower-cases to `**extracted from**: ...`, which never contains the
guard token `extracted-from:`, so a second enrichment of the same staged
document appends the footer again. -/
theorem enrich_skill_metadata_not_idempotent :
    enrich_skill_metadata
        (enrich_skill_metadata "# My Skill\nDoes useful things." "alice/tool"
          "https://github.com/alice/tool" "30%" "alice-tool")
        "alice/tool" "https://github.com/alice/tool" "30%" "alice-tool"
      = enrich_skill_metadata "# My Skill\nDoes useful things." "alice/tool"
          "https://github.com/alice/tool" "30%" "alice-tool"
        ++ enrichFooter "alice/tool" "https://github.com/alice/tool" "30%" "alice-tool"
    ∧ enrich_skill_metadata
        (enrich_skill_metadata "# My Skill\nDoes useful things." "alice/tool"
          "https://github.com/alice/tool" "30%" "alice-tool")
        "alice/tool" "https://github.com/alice/tool" "30%" "alice-tool"
      ≠ enrich_skill_metadata "# My Skill\nDoes useful things." "alice/tool"
          "https://github.com/alice/tool" "30%" "alice-tool" := by
  constructor
  · decide
  · decide

/-- Model of `SkillExtractor._determine_skill_name` (src/skill_extractor.py):
the guard compares the marker folder's basename against the literal `.` and
the repository name, then a leading `skills` segment with a subfolder wins,
then the folder basename. -/
def determine_skill_name (skill_folder_name : String) (relative_parts : List String)
    (owner repo_name : String) : String :=
  if skill_folder_name = "." || skill_folder_name = repo_name then
    owner ++ "-" ++ repo_name
  else
    match relative_parts with
    | "skills" :: sub :: _ => owner ++ "-" ++ sub
    | _ => owner ++ "-" ++ skill_folder_name

/-- The naming pipeline of `_extract_single_skill` for a marker file whose
containing folder sits at the relative directory `rel` (pathlib-normalized
components; empty for the clone root) inside a clone rooted at the absolute
directory `cloneRoot` (its components): `skill_folder = repo_dir / rel`,
`folder_name = skill_folder.name` is the last path component — for the
clone root itself that is the temporary clone directory's basename, since
pathlib's `Path.name` is never the literal `.`. -/
def derived_skill_name (cloneRoot rel : List String) (owner repo_name : String) : String :=
  determine_skill_name ((cloneRoot ++ rel).getLastD "") rel owner repo_name

/-- C3 is a code bug for clone-root markers: the `folder_name == "."` guard
can never fire (pathlib `Path.name` is never `.`), so a marker at the clone
root is named after the temporary clone directory's basename
(`skill-scraper-<owner>-<name>-<random>`) instead of `owner-reponame`; the
repo-name and `skills/<sub>` and plain-folder cases behave as claimed. -/
theorem determine_skill_name_root_marker :
    derived_skill_name ["tmp", "skill-scraper-alice-tool-x1"] [] "alice" "tool"
      = "alice-skill-scraper-alice-tool-x1"
    ∧ derived_skill_name ["tmp", "skill-scraper-alice-tool-x1"] [] "alice" "tool"
      ≠ "alice-tool"
    ∧ derived_skill_name ["tmp", "skill-scraper-alice-tool-x1"] ["tool"] "alice" "tool"
      = "alice-tool"
    ∧ derived_skill_name ["tmp", "skill-scraper-alice-tool-x1"] ["skills", "foo"]
        "alice" "tool" = "alice-foo"
    ∧ derived_skill_name ["tmp", "skill-scraper-alice-tool-x1"] ["bar"] "alice" "tool"
      = "alice-bar" := by
  refine ⟨by decide, by decide, by decide, by decide, by decide⟩

/-- Python `content.split("\n")`. -/
def splitLinesAux : List Char → List Char → List (List Char)
  | [], acc => [acc.reverse]
  | c :: t, acc =>
      if c = '\n' then acc.reverse :: splitLinesAux t []
      else splitLinesAux t (c :: acc)

/-- Line splitting of a document, as `content.split("\n")`. -/
def splitLines (l : List Char) : List (List Char) :=
  splitLinesAux l []

/-- Python `line.strip()` on the ASCII whitespace the pipeline handles. -/
def stripWs (l : List Char) : List Char :=
  ((l.dropWhile isPySpace).reverse.dropWhile isPySpace).reverse

/-- The `\s*\n` step of the frontmatter pattern
`^---\s*\n(.*?)\n---\s*\n` (src/skill_extractor.py): consume the maximal
whitespace run, which must be non-empty and end in a newline. -/
def wsRunNL (cs : List Char) : Option (List Char) :=
  let run := cs.takeWhile isPySpace
  if !run.isEmpty && (run.getLastD ' ' == '\n') then some (cs.dropWhile isPySpace)
  else none

/-- Search for the lazy terminator `\n---\s*\n` of the frontmatter pattern:
the first position where it matches wins; the characters before it form the
`(.*?)` group. -/
def findTerm : List Char → Option (List Char × List Char)
  | [] => none
  | c :: rest =>
      if c = '\n' then
        match rest with
        | '-' :: '-' :: '-' :: r2 =>
            match wsRunNL r2 with
            | some r3 => some ([], r3)
            | none => (findTerm rest).map (fun pr => (c :: pr.1, pr.2))
        | _ => (findTerm rest).map (fun pr => (c :: pr.1, pr.2))
      else (findTerm rest).map (fun pr => (c :: pr.1, pr.2))

/-- The frontmatter group of `re.match(r"^---\s*\n(.*?)\n---\s*\n", content,
re.DOTALL)`: a leading `---`, whitespace ending in a newline, then the lazy
group up to the first matching terminator. -/
def frontMatter (cs : List Char) : Option (List Char) :=
  match cs with
  | '-' :: '-' :: '-' :: r =>
      match wsRunNL r with
      | some r2 => (findTerm r2).map Prod.fst
      | none => none
  | _ => none

/-- Python `line.split(":", 1)` when a colon is present. -/
def splitFirstColon (l : List Char) : Option (List Char × List Char) :=
  let pre := l.takeWhile (fun c => !(c = ':'))
  match l.dropWhile (fun c => !(c = ':')) with
  | ':' :: rest => some (pre, rest)
  | _ => none

/-- The description fallback scan of `_parse_skill_metadata`: the first
stripped non-empty non-heading line immediately following a `# ` heading
line, truncated to 200 characters. -/
def fallbackDesc : List (List Char) → Option (List Char)
  | l1 :: l2 :: rest =>
      if leadsWith ("# ".toList) l1 then
        let nl := stripWs l2
        if !nl.isEmpty && !leadsWith ("#".toList) nl then some (nl.take 200)
        else fallbackDesc (l2 :: rest)
      else fallbackDesc (l2 :: rest)
  | _ => none

/-- The metadata dict produced by `SkillExtractor._parse_skill_metadata`. -/
structure Metadata : Type where
  name : String
  description : String
  content : String
deriving DecidableEq

/-- Model of `SkillExtractor._parse_skill_metadata` (src/skill_extractor.py)
on the marker document content: defaults, frontmatter key-value scan
retaining `name` and `description`, then the first-heading fallback for a
missing description. -/
def parse_skill_metadata (content : String) : Metadata :=
  let cs := content.toList
  let m0 : Metadata :=
    { name := "", description := "No description available", content := content }
  let m1 := match frontMatter cs with
    | none => m0
    | some fm =>
        (splitLines fm).foldl (fun acc line =>
          match splitFirstColon line with
          | none => acc
          | some (k, v) =>
              let key := (toLowerL (stripWs k)).asString
              let value := (stripWs v).asString
              if key = "name" then { acc with name := value }
              else if key = "description" then { acc with description := value }
              else acc) m0
  if m1.description = "" ∨ m1.description = "No description available" then
    match fallbackDesc (splitLines cs) with
    | some d => { m1 with description := d.asString }
    | none => m1
  else m1

/-- A file tree as copied between marker folders: relative paths (component
lists) mapped to file contents. -/
abbrev FileTree := List (List String × String)

/-- Model of `SkillExtractor._copy_skill_files` (src/skill_extractor.py):
top-level dotfiles and `__pycache__` entries are skipped; everything else
(files, and directories recursively) is copied. -/
def copy_skill_files (tree : FileTree) : FileTree :=
  tree.filter (fun e =>
    match e.1 with
    | [] => false
    | c :: _ => !(strStartsWith c ".") && !(c == "__pycache__"))

/-- Merge a copied tree into an already-staged tree
(`copy2` / `copytree(dirs_exist_ok=True)`): copied entries overwrite. -/
def mergeTreeInto (old new : FileTree) : FileTree :=
  new.foldl (fun acc e => dictInsert acc e.1 e.2) old

/-- The fields of `config.ExtractionConfig` (src/config.py) the extractor
reads. -/
structure ExtractionConfig : Type where
  mode : String
  auto_detect : Bool
  confirm_extraction : Bool
  max_skills_per_repo : Nat
  skip_existing : Bool
  update_existing : Bool
  clone_depth : Nat
  install_location : String
deriving DecidableEq

/-- The filesystem state the extractor touches: the installed units under
`skills_dir` and the staged units under `staging_dir`, each keyed by unit
name. -/
structure ExtState : Type where
  installed : List (String × FileTree)
  staging : List (String × FileTree)
deriving DecidableEq

/-- The skill dict built by `_extract_single_skill` on success. -/
structure SkillInfo : Type where
  name : String
  staging_path : String
  final_path : String
  source_repo : String
  description : String
  skill_name : String
  metadata : Metadata
deriving DecidableEq

/-- The result dict of `_extract_single_skill`. -/
structure ExtractResult : Type where
  success : Bool
  skipped : Bool
  skill : Option SkillInfo
deriving DecidableEq

/-- The per-repository counters of `extract_skills`. -/
structure ExtractCounts : Type where
  extracted_count : Nat
  skipped_count : Nat
  failed_count : Nat
deriving DecidableEq

/-- The counting branch of the `for skill_file in skill_files` loop of
`SkillExtractor.extract_skills` (src/skill_extractor.py). -/
def tally_outcome (c : ExtractCounts) (r : ExtractResult) : ExtractCounts :=
  if r.success then { c with extracted_count := c.extracted_count + 1 }
  else if r.skipped then { c with skipped_count := c.skipped_count + 1 }
  else { c with failed_count := c.failed_count + 1 }

/-- Model of `SkillExtractor._extract_single_skill` (src/skill_extractor.py)
for one marker file: derive the unit name, return a skipped result before
touching anything when the final target exists under skip-existing (and not
update-existing), otherwise stage a copy of the marker folder (merging into
any same-named staging entry), enrich the staged marker document, parse its
metadata and report success. `srcTree` is the marker file's folder inside
the clone; `confPct` is the rendered detection confidence. -/
def extract_single_skill (cfg : ExtractionConfig) (st : ExtState)
    (skill_folder_name : String) (relative_parts : List String)
    (srcTree : FileTree) (source_repo : Record) (confPct : String)
    (staging_dir skills_dir : String) : ExtractResult × ExtState :=
  let skill_name := determine_skill_name skill_folder_name relative_parts
    ((alookup "owner" source_repo).getD "") ((alookup "name" source_repo).getD "")
  if skill_name ∈ keysOf st.installed ∧ cfg.skip_existing = true ∧
      cfg.update_existing = false then
    ({ success := false, skipped := true, skill := none }, st)
  else
    let staged0 := (alookup skill_name st.staging).getD []
    let staged1 := mergeTreeInto staged0 (copy_skill_files srcTree)
    let staged2 := match alookup ["SKILL.md"] staged1 with
      | none => staged1
      | some c => dictInsert staged1 ["SKILL.md"]
          (enrich_skill_metadata c ((alookup "full_name" source_repo).getD "")
            ((alookup "url" source_repo).getD "") confPct skill_name)
    let md := match alookup ["SKILL.md"] staged2 with
      | none => { name := "", description := "No description available", content := "" }
      | some c => parse_skill_metadata c
    ({ success := true, skipped := false,
       skill := some
         { name := skill_name,
           staging_path := staging_dir ++ "/" ++ skill_name,
           final_path := skills_dir ++ "/" ++ skill_name,
           source_repo := (alookup "full_name" source_repo).getD "",
           description := md.description,
           skill_name := md.name,
           metadata := md } },
     { st with staging := dictInsert st.staging skill_name staged2 })

/-- C6: with skip-existing configured and update-existing not, extracting a
marker file whose derived unit name already exists at the final installation
location yields a skipped outcome (counted as skipped, not failed, not
successful) and leaves the filesystem state, in particular the installed
unit of that name, unchanged. -/
theorem extract_single_skill_skip_existing (cfg : ExtractionConfig) (st : ExtState)
    (skill_folder_name : String) (relative_parts : List String) (srcTree : FileTree)
    (source_repo : Record) (confPct staging_dir skills_dir : String)
    (hskip : cfg.skip_existing = true) (hupd : cfg.update_existing = false)
    (hex : determine_skill_name skill_folder_name relative_parts
        ((alookup "owner" source_repo).getD "") ((alookup "name" source_repo).getD "")
        ∈ keysOf st.installed) :
    extract_single_skill cfg st skill_folder_name relative_parts srcTree source_repo
        confPct staging_dir skills_dir
      = ({ success := false, skipped := true, skill := none }, st)
    ∧ ∀ c : ExtractCounts,
        tally_outcome c (extract_single_skill cfg st skill_folder_name relative_parts
            srcTree source_repo confPct staging_dir skills_dir).1
          = { c with skipped_count := c.skipped_count + 1 } := by
  have hmain : extract_single_skill cfg st skill_folder_name relative_parts srcTree
      source_repo confPct staging_dir skills_dir
      = ({ success := false, skipped := true, skill := none }, st) := by
    unfold extract_single_skill
    rw [if_pos ⟨hex, hskip, hupd⟩]
  exact ⟨hmain, fun c => by rw [hmain]; rfl⟩

/-- A concrete extraction configuration with skip-existing on and
update-existing off (the `extract_all` shape of src/config.py). -/
def cfgSkipExisting : ExtractionConfig :=
  { mode := "extract", auto_detect := true, confirm_extraction := false,
    max_skills_per_repo := 50, skip_existing := true, update_existing := false,
    clone_depth := 1, install_location := "global" }

/-- A concrete filesystem state with one installed unit named `alice-bar`. -/
def stWithAliceBar : ExtState :=
  { installed := [("alice-bar", [(["SKILL.md"], "# old")])], staging := [] }

/-- A concrete source repository record. -/
def repoAliceTool : Record :=
  [("owner", "alice"), ("name", "tool"), ("full_name", "alice/tool"),
   ("url", "https://github.com/alice/tool")]

/-- Witness for C6: a concrete configuration with skip-existing on,
update-existing off, and an installed unit named `alice-bar` colliding with
the derived name. -/
theorem extract_single_skill_skip_existing_witness :
    (cfgSkipExisting.skip_existing = true
      ∧ cfgSkipExisting.update_existing = false
      ∧ determine_skill_name "bar" ["bar"]
          ((alookup "owner" repoAliceTool).getD "")
          ((alookup "name" repoAliceTool).getD "")
        ∈ keysOf stWithAliceBar.installed)
    ∧ extract_single_skill cfgSkipExisting stWithAliceBar "bar" ["bar"]
        [(["SKILL.md"], "# new")] repoAliceTool "30%" "/tmp/staging"
        "/root/.claude/skills"
      = ({ success := false, skipped := true, skill := none }, stWithAliceBar)
    ∧ ∀ c : ExtractCounts,
        tally_outcome c (extract_single_skill cfgSkipExisting stWithAliceBar "bar"
          ["bar"] [(["SKILL.md"], "# new")] repoAliceTool "30%" "/tmp/staging"
          "/root/.claude/skills").1
          = { c with skipped_count := c.skipped_count + 1 } :=
  ⟨⟨by decide, by decide, by decide⟩,
    (extract_single_skill_skip_existing cfgSkipExisting stWithAliceBar "bar" ["bar"]
      [(["SKILL.md"], "# new")] repoAliceTool "30%" "/tmp/staging"
      "/root/.claude/skills" (by decide) (by decide) (by decide)).1,
    (extract_single_skill_skip_existing cfgSkipExisting stWithAliceBar "bar" ["bar"]
      [(["SKILL.md"], "# new")] repoAliceTool "30%" "/tmp/staging"
      "/root/.claude/skills" (by decide) (by decide) (by decide)).2⟩

/-- The skills directory seen by `SkillGenerator` (src/skill_generator.py):
the unit directories present, and the marker files they contain, keyed by
unit name. -/
structure GenFS : Type where
  dirs : List String
  files : List (String × String)
deriving DecidableEq

/-- Model of `SkillGenerator._create_skill_content` (src/skill_generator.py):
the wrapper marker document for a repository record. -/
def create_skill_content (repo : Record) : String :=
  "---\nname: " ++ ((alookup "owner" repo).getD "" ++ "/" ++ (alookup "name" repo).getD "")
    ++ "\ndescription: " ++ (alookup "description" repo).getD "No description available"
    ++ "\n---\n\n# " ++ ((alookup "owner" repo).getD "" ++ "/" ++ (alookup "name" repo).getD "")
    ++ "\n\nGitHub Repository: " ++ (alookup "url" repo).getD ""
    ++ "\n\n## Description\n\n" ++ (alookup "description" repo).getD "No description available"
    ++ "\n\n## Usage\n\nThis skill provides context about the "
    ++ (alookup "name" repo).getD "" ++ " repository by " ++ (alookup "owner" repo).getD ""
    ++ ".\n\nVisit the repository for more information: " ++ (alookup "url" repo).getD ""
    ++ "\n"

/-- Model of `SkillGenerator.generate_skill` (src/skill_generator.py): fail
without touching the filesystem when the unit directory exists; otherwise
create the directory and write the document; an injected write failure
(`write_ok = false`) removes the partially created directory and returns
false. -/
def generate_skill (fs : GenFS) (repo : Record) (write_ok : Bool) : Bool × GenFS :=
  if ((alookup "owner" repo).getD "" ++ "-" ++ (alookup "name" repo).getD "") ∈ fs.dirs then
    (false, fs)
  else if write_ok then
    (true, { dirs := fs.dirs ++ [(alookup "owner" repo).getD "" ++ "-" ++
               (alookup "name" repo).getD ""],
             files := dictInsert fs.files
               ((alookup "owner" repo).getD "" ++ "-" ++ (alookup "name" repo).getD "")
               (create_skill_content repo) })
  else
    (false, { dirs := (fs.dirs ++ [(alookup "owner" repo).getD "" ++ "-" ++
                (alookup "name" repo).getD ""]).filter
                  (fun d => !(d == (alookup "owner" repo).getD "" ++ "-" ++
                    (alookup "name" repo).getD "")),
              files := fs.files.filter
                (fun e => !(e.1 == (alookup "owner" repo).getD "" ++ "-" ++
                  (alookup "name" repo).getD "")) })

/-- C9: `generate_skill` fails atomically. If the unit directory
`owner-name` exists, it returns false and the filesystem is untouched;
otherwise it creates the directory and writes the document; on a write
failure it removes the partially created directory, so a false return with
no pre-existing directory leaves the filesystem as it was. -/
theorem generate_skill_atomic (fs : GenFS) (repo : Record) (write_ok : Bool) (nm : String)
    (hnm : nm = (alookup "owner" repo).getD "" ++ "-" ++ (alookup "name" repo).getD "")
    (hclean : ∀ e ∈ fs.files, e.1 ≠ nm) :
    (nm ∈ fs.dirs → generate_skill fs repo write_ok = (false, fs))
    ∧ (nm ∉ fs.dirs → write_ok = true →
        generate_skill fs repo write_ok =
          (true, { dirs := fs.dirs ++ [nm],
                   files := dictInsert fs.files nm (create_skill_content repo) }))
    ∧ (nm ∉ fs.dirs → write_ok = false →
        generate_skill fs repo write_ok = (false, fs)) := by
  subst hnm
  refine ⟨fun h => ?_, fun h hw => ?_, fun h hw => ?_⟩
  · unfold generate_skill
    rw [if_pos h]
  · unfold generate_skill
    rw [if_neg h, if_pos hw]
  · unfold generate_skill
    rw [if_neg h, if_neg (by rw [hw]; exact Bool.false_ne_true)]
    have h1 : (fs.dirs ++ [(alookup "owner" repo).getD "" ++ "-" ++
        (alookup "name" repo).getD ""]).filter
          (fun d => !(d == (alookup "owner" repo).getD "" ++ "-" ++
            (alookup "name" repo).getD "")) = fs.dirs := by
      rw [List.filter_append]
      have hself : fs.dirs.filter
          (fun d => !(d == (alookup "owner" repo).getD "" ++ "-" ++
            (alookup "name" repo).getD "")) = fs.dirs := by
        apply List.filter_eq_self.mpr
        intro d hd
        simp only [Bool.not_eq_eq_eq_not, Bool.not_true, beq_eq_false_iff_ne, ne_eq]
        exact fun he => h (he ▸ hd)
      rw [hself]
      simp
    have h2 : fs.files.filter
        (fun e => !(e.1 == (alookup "owner" repo).getD "" ++ "-" ++
          (alookup "name" repo).getD "")) = fs.files := by
      apply List.filter_eq_self.mpr
      intro e he
      simp only [Bool.not_eq_eq_eq_not, Bool.not_true, beq_eq_false_iff_ne, ne_eq]
      exact hclean e he
    rw [h1, h2]

/-- A concrete generator filesystem with one unrelated unit. -/
def genFS0 : GenFS :=
  { dirs := ["bob-x"], files := [("bob-x", "doc")] }

/-- The generator filesystem after a successful generation for
`repoAliceTool`. -/
def genFS1 : GenFS :=
  { dirs := ["bob-x"] ++ ["alice-tool"],
    files := dictInsert [("bob-x", "doc")] "alice-tool"
      (create_skill_content repoAliceTool) }

/-- Witness for C9 covering all three branches on a concrete filesystem. -/
theorem generate_skill_atomic_witness :
    ("alice-tool" = (alookup "owner" repoAliceTool).getD "" ++ "-" ++
        (alookup "name" repoAliceTool).getD ""
      ∧ ∀ e ∈ genFS0.files, e.1 ≠ "alice-tool")
    ∧ (("alice-tool" ∈ genFS0.dirs →
          generate_skill genFS0 repoAliceTool true = (false, genFS0))
      ∧ ("alice-tool" ∉ genFS0.dirs → true = true →
          generate_skill genFS0 repoAliceTool true = (true, genFS1))
      ∧ ("alice-tool" ∉ genFS0.dirs → true = false →
          generate_skill genFS0 repoAliceTool true = (false, genFS0))) :=
  ⟨⟨by decide, by decide⟩,
    generate_skill_atomic genFS0 repoAliceTool true "alice-tool" (by decide) (by decide)⟩

/-- Match the markdown-link pattern `\[([^\]]+)\]\([^)]+\)` at the head of
the input; on success return the link text (the replacement) and the rest. -/
def tryLinkAt (cs : List Char) : Option (List Char × List Char) :=
  match cs with
  | '[' :: r1 =>
      match r1.takeWhile (fun c => !(c = ']')), r1.dropWhile (fun c => !(c = ']')) with
      | [], _ => none
      | txt, ']' :: '(' :: r3 =>
          match r3.takeWhile (fun c => !(c = ')')), r3.dropWhile (fun c => !(c = ')')) with
          | [], _ => none
          | _, ')' :: r5 => some (txt, r5)
          | _, _ => none
      | _, _ => none
  | _ => none

/-- Left-to-right non-overlapping replacement of markdown links by their
text, as `re.sub(r"\[([^\]]+)\]\([^)]+\)", r"\1", line)`; the fuel is the
input length, which the scan never exceeds. -/
def linkSubAux : Nat → List Char → List Char
  | 0, l => l
  | _ + 1, [] => []
  | fuel + 1, c :: t =>
      match tryLinkAt (c :: t) with
      | some (txt, rest) => txt ++ linkSubAux fuel rest
      | none => c :: linkSubAux fuel t

/-- Replace every markdown link in a line by its link text. -/
def linkSub (l : List Char) : List Char :=
  linkSubAux l.length l

/-- The per-line candidate filter of `RepoScraper._extract_first_paragraph`
(src/scraper.py): skip headings, badge and image lines and blanks; strip
link syntax and the emphasis characters, strip whitespace, and keep the
line when the cleaned length exceeds 20. -/
def lineCandidate (line : List Char) : Option (List Char) :=
  let l := stripWs line
  if leadsWith ("#".toList) l then none
  else if leadsWith ("[![".toList) l then none
  else if leadsWith ("![".toList) l then none
  else if l.isEmpty then none
  else
    let cleaned := stripWs ((linkSub l).filter
      (fun c => !(c = '*' || c = '_' || c = Char.ofNat 96)))
    if 20 < cleaned.length then some cleaned else none

/-- Model of `RepoScraper._extract_first_paragraph` (src/scraper.py): among
the first five candidate lines, the first of maximal length, truncated to
200 characters; the empty string when no line qualifies. -/
def extract_first_paragraph (markdown : List Char) : String :=
  let candidates := (splitLines markdown).filterMap lineCandidate
  if candidates.isEmpty then ""
  else
    ((candidates.take 5).foldl
      (fun acc c => if acc.length < c.length then c else acc)
      ((candidates.take 5).headD [])).take 200 |>.asString

/-- Python `url.rstrip("/")`. -/
def rstripSlashes (s : String) : String :=
  ((s.toList.reverse.dropWhile (fun c => c = '/')).reverse).asString

/-- Model of `RepoScraper.scrape_awesome_repo` (src/scraper.py) after URL
parsing: `path_parts` are the slash segments of the URL path,
`direct` is the outcome of `_is_direct_skill_repo`, `readme_fetch` the
outcome of the README fetch with branch fallback (an `HTTPError` collapses
to `Except.error`), and `details_fetch` the fetch outcome inside
`fetch_repo_details` for the direct branch. -/
def scrape_awesome_repo (path_parts : List String) (github_url : String)
    (direct : Bool) (readme_fetch details_fetch : Except Unit String) : List Record :=
  if path_parts.length < 2 then []
  else if direct then
    [[("owner", path_parts.getD 0 ""), ("name", path_parts.getD 1 ""),
      ("full_name", path_parts.getD 0 "" ++ "/" ++ path_parts.getD 1 ""),
      ("url", rstripSlashes github_url),
      ("description", match details_fetch with
        | Except.ok c =>
            if extract_first_paragraph c.toList = "" then "No description available"
            else extract_first_paragraph c.toList
        | Except.error _ => "No description available")]]
  else
    match readme_fetch with
    | Except.error _ =>
        [[("owner", path_parts.getD 0 ""), ("name", path_parts.getD 1 ""),
          ("full_name", path_parts.getD 0 "" ++ "/" ++ path_parts.getD 1 ""),
          ("url", rstripSlashes github_url),
          ("description", "No description available")]]
    | Except.ok content =>
        if (extract_repos content.toList).isEmpty then
          [[("owner", path_parts.getD 0 ""), ("name", path_parts.getD 1 ""),
            ("full_name", path_parts.getD 0 "" ++ "/" ++ path_parts.getD 1 ""),
            ("url", rstripSlashes github_url),
            ("description",
              if extract_first_paragraph content.toList = "" then "No description available"
              else extract_first_paragraph content.toList)]]
        else extract_repos content.toList

/-- C10: for every URL whose path has at least two segments,
`scrape_awesome_repo` returns a non-empty list; when the README fetch fails
or yields no extractable repository links, the seed repository itself comes
back as a one-element list with a placeholder or first-paragraph
description. -/
theorem scrape_awesome_repo_nonempty (path_parts : List String) (github_url : String)
    (direct : Bool) (readme_fetch details_fetch : Except Unit String)
    (h : 2 ≤ path_parts.length) :
    scrape_awesome_repo path_parts github_url direct readme_fetch details_fetch ≠ []
    ∧ (direct = false → readme_fetch = Except.error () →
        scrape_awesome_repo path_parts github_url direct readme_fetch details_fetch
          = [[("owner", path_parts.getD 0 ""), ("name", path_parts.getD 1 ""),
              ("full_name", path_parts.getD 0 "" ++ "/" ++ path_parts.getD 1 ""),
              ("url", rstripSlashes github_url),
              ("description", "No description available")]])
    ∧ (∀ content, direct = false → readme_fetch = Except.ok content →
        extract_repos content.toList = [] →
        scrape_awesome_repo path_parts github_url direct readme_fetch details_fetch
          = [[("owner", path_parts.getD 0 ""), ("name", path_parts.getD 1 ""),
              ("full_name", path_parts.getD 0 "" ++ "/" ++ path_parts.getD 1 ""),
              ("url", rstripSlashes github_url),
              ("description",
                if extract_first_paragraph content.toList = "" then
                  "No description available"
                else extract_first_paragraph content.toList)]]) := by
  have hlen : ¬ path_parts.length < 2 := by omega
  refine ⟨?_, ?_, ?_⟩
  · unfold scrape_awesome_repo
    rw [if_neg hlen]
    by_cases hd : direct
    · rw [if_pos hd]
      simp
    · rw [if_neg hd]
      cases readme_fetch with
      | error e => simp
      | ok content =>
          show (if (extract_repos content.toList).isEmpty = true then _ else _) ≠ []
          by_cases hrep : (extract_repos content.toList).isEmpty
          · rw [if_pos hrep]
            simp
          · rw [if_neg hrep]
            intro hnil
            rw [hnil] at hrep
            simp at hrep
  · intro hd hf
    subst hf
    unfold scrape_awesome_repo
    rw [if_neg hlen, if_neg (by rw [hd]; exact Bool.false_ne_true)]
  · intro content hd hf hrep
    subst hf
    unfold scrape_awesome_repo
    rw [if_neg hlen, if_neg (by rw [hd]; exact Bool.false_ne_true)]
    show (if (extract_repos content.toList).isEmpty then _ else _) = _
    rw [hrep]
    rfl

/-- Witness for C10 at a concrete two-segment URL with a failed fetch. -/
theorem scrape_awesome_repo_nonempty_witness :
    2 ≤ (["alice", "tool"] : List String).length
    ∧ (scrape_awesome_repo ["alice", "tool"] "https://github.com/alice/tool/" false
        (Except.error ()) (Except.error ()) ≠ []
      ∧ (false = false → (Except.error () : Except Unit String) = Except.error () →
          scrape_awesome_repo ["alice", "tool"] "https://github.com/alice/tool/" false
            (Except.error ()) (Except.error ())
            = [[("owner", (["alice", "tool"] : List String).getD 0 ""),
                ("name", (["alice", "tool"] : List String).getD 1 ""),
                ("full_name", (["alice", "tool"] : List String).getD 0 "" ++ "/" ++
                  (["alice", "tool"] : List String).getD 1 ""),
                ("url", rstripSlashes "https://github.com/alice/tool/"),
                ("description", "No description available")]])
      ∧ (∀ content, false = false →
          (Except.error () : Except Unit String) = Except.ok content →
          extract_repos content.toList = [] →
          scrape_awesome_repo ["alice", "tool"] "https://github.com/alice/tool/" false
            (Except.error ()) (Except.error ())
            = [[("owner", (["alice", "tool"] : List String).getD 0 ""),
                ("name", (["alice", "tool"] : List String).getD 1 ""),
                ("full_name", (["alice", "tool"] : List String).getD 0 "" ++ "/" ++
                  (["alice", "tool"] : List String).getD 1 ""),
                ("url", rstripSlashes "https://github.com/alice/tool/"),
                ("description",
                  if extract_first_paragraph content.toList = "" then
                    "No description available"
                  else extract_first_paragraph content.toList)]])) :=
  ⟨by decide,
    scrape_awesome_repo_nonempty ["alice", "tool"] "https://github.com/alice/tool/" false
      (Except.error ()) (Except.error ()) (by decide)⟩
